import Mathlib

set_option maxRecDepth 100000

/-!
Verification of the document version-history and export core of the
ai-meet-transcript repository, shallowly embedded in Lean.

Sources embedded:
- src/backend/services/versionHistory.js : VersionHistoryService (saveVersion,
  getVersions, getVersion, getLatestVersion, compareVersions, restoreVersion,
  cleanupOldVersions) and ExportService (exportToText, exportToMarkdown with
  their header/footer builders).
- src/unnamed/part_010 : SecurityMiddleware.sanitizeInput.

Modelling conventions:
- Strings are Lean String (lists of characters); character classes such as the
  control range 0x00-0x1F,0x7F are tested on char codes. JS string length is
  the number of UTF-16 code units; for the ASCII inputs used in this file it
  coincides with the character count used here.
- Date.now() is an explicit Nat argument (milliseconds); new Date(ts) minus
  new Date(ts2) is modelled as comparison of those Nats.
- The in-memory Map of documentId to a mutable revision array is modelled as a
  total function String -> List Rev with default []; Map.get(d) || [] on an
  absent key and the has/set-empty initialisation in saveVersion both coincide
  with this default-empty reading.
- Thrown errors are modelled with Except String, carrying the thrown message.
-/

/-! Character classes used by the sanitizer (SecurityMiddleware.sanitizeInput,
src/unnamed/part_010 lines 56-74). Quote characters and the semicolon are the
class of the regex removing them (codes 39, 34, 96, 59); control characters
are 0x00-0x1F and 0x7F; whitespace is the ASCII whitespace recognised by
String.prototype.trim and the regex class backslash-s (restricted to ASCII). -/

def isLowerAlpha (c : Char) : Bool := 97 ≤ c.toNat && c.toNat ≤ 122

def isQuoteSemiChar (c : Char) : Bool :=
  c.toNat == 39 || c.toNat == 34 || c.toNat == 96 || c.toNat == 59

def isCtlChar (c : Char) : Bool := c.toNat ≤ 31 || c.toNat == 127

def isWsChar (c : Char) : Bool :=
  c.toNat == 32 || c.toNat == 9 || c.toNat == 10 || c.toNat == 11 ||
  c.toNat == 12 || c.toNat == 13

/-- Modelled from the spec: the DOMPurify allow-list configured at
src/unnamed/part_010 line 63: ALLOWED_TAGS b, i, em, strong, u, br, p. -/
def allowedTagNames : List (List Char) :=
  [['b'], ['i'], ['e', 'm'], ['s', 't', 'r', 'o', 'n', 'g'], ['u'],
   ['b', 'r'], ['p']]

/-- Modelled from the spec: how a single parsed tag body (the characters
between < and >) is re-emitted by the sanitizer. A tag whose name (after an
optional closing slash, up to the first non-letter) is on the allow-list is
kept with all attributes stripped; every other tag is removed. -/
def emitTag (body : List Char) : List Char :=
  let closing := body.head? == some '/'
  let core := if closing then body.tail else body
  let name := core.takeWhile isLowerAlpha
  if name ∈ allowedTagNames then
    ('<' :: (if closing then '/' :: name else name)) ++ ['>']
  else []

/-- Modelled from the spec: DOMPurify.sanitize with the configuration of
src/unnamed/part_010 lines 62-65. The scanner copies text characters, and on
a < collects the tag body until the next >, re-emitting it through emitTag;
an unterminated tag at end of input is dropped. The mode argument is none in
text, and some acc inside a tag with the reversed body collected so far. -/
def dpAux (mode : Option (List Char)) (l : List Char) : List Char :=
  match l with
  | [] => []
  | c :: cs =>
    match mode with
    | none => if c = '<' then dpAux (some []) cs else c :: dpAux none cs
    | some acc =>
      if c = '>' then emitTag acc.reverse ++ dpAux none cs
      else dpAux (some (c :: acc)) cs

def dompurify (l : List Char) : List Char := dpAux none l

/-- Removal of quote characters and semicolons, the regex replace at
src/unnamed/part_010 line 68. -/
def removeQuoteSemi (l : List Char) : List Char := l.filter fun c => !isQuoteSemiChar c

/-- Removal of null bytes and control characters, the regex replace at
src/unnamed/part_010 line 71. -/
def removeCtl (l : List Char) : List Char := l.filter fun c => !isCtlChar c

/-- Removal of trailing whitespace, the right half of String.prototype.trim. -/
def trimRight : List Char → List Char
  | [] => []
  | c :: cs =>
    match trimRight cs with
    | [] => if isWsChar c then [] else [c]
    | d :: ds => c :: d :: ds

/-- String.prototype.trim at src/unnamed/part_010 line 73: leading and
trailing whitespace removed. -/
def trimChars (l : List Char) : List Char := trimRight (l.dropWhile isWsChar)

/-- Sanitization pipeline for string input, src/unnamed/part_010 lines 60-73:
DOMPurify, then quote/semicolon removal, then control-character removal, then
trim. -/
def sanitizeChars (l : List Char) : List Char :=
  trimChars (removeCtl (removeQuoteSemi (dompurify l)))

def sanitizeString (s : String) : String := String.mk (sanitizeChars s.data)

/-- Modelled from the spec: validator.escape (an external library), used by
the non-string branch of sanitizeInput at src/unnamed/part_010 line 58. It
replaces the HTML-significant characters ampersand, angle brackets, quotes,
backtick, backslash and slash by their HTML entities and leaves every other
character alone. -/
def escapeChar (c : Char) : List Char :=
  if c = '&' then ['&', 'a', 'm', 'p', ';']
  else if c = '<' then ['&', 'l', 't', ';']
  else if c = '>' then ['&', 'g', 't', ';']
  else if c.toNat == 34 then ['&', 'q', 'u', 'o', 't', ';']
  else if c.toNat == 39 then ['&', '#', 'x', '2', '7', ';']
  else if c.toNat == 96 then ['&', '#', '9', '6', ';']
  else if c.toNat == 92 then ['&', '#', 'x', '5', 'C', ';']
  else if c = '/' then ['&', '#', 'x', '2', 'F', ';']
  else [c]

def escapeHtml (s : String) : String := String.mk (s.data.map escapeChar).flatten

/-- JavaScript values reaching sanitizeInput: a string, a boolean, or an
array of strings (enough of the JS value universe for the claims; typeof is
string exactly on the str constructor). -/
inductive JsValue where
  | str (s : String)
  | boolean (b : Bool)
  | strArr (elems : List String)
deriving DecidableEq

/-- JavaScript String(x) coercion on the modelled values: identity on
strings, true/false on booleans, comma-joined elements on arrays. -/
def jsToString : JsValue → String
  | .str s => s
  | .boolean b => if b then "true" else "false"
  | .strArr l => String.intercalate "," l

/-- SecurityMiddleware.sanitizeInput, src/unnamed/part_010 lines 56-74: a
non-string input is coerced with String and HTML-escaped; a string input runs
through the DOMPurify/quote-removal/control-removal/trim pipeline. -/
def sanitizeInput : JsValue → String
  | .str s => sanitizeString s
  | v => escapeHtml (jsToString v)

/-! Version store (src/backend/services/versionHistory.js). -/

/-- JavaScript content.split with separator a newline character: the list of
line pieces, one more piece than there are newlines, empty string for an
empty input. -/
def splitNlChars : List Char → List (List Char)
  | [] => [[]]
  | c :: cs =>
    if c = '\n' then [] :: splitNlChars cs
    else
      match splitNlChars cs with
      | [] => [[c]]
      | h :: t => (c :: h) :: t

def splitNl (s : String) : List String := (splitNlChars s.data).map String.mk

/-- Word counting of saveVersion (versionHistory.js line 34): split on runs of
whitespace and keep the nonempty pieces. The split produces exactly the
maximal non-whitespace runs plus possibly empty border pieces, which the
length filter drops, so the count is the number of maximal non-whitespace
runs, computed here with an inWord flag. -/
def countWordsAux : Bool → List Char → Nat
  | _, [] => 0
  | inWord, c :: cs =>
    if isWsChar c then countWordsAux false cs
    else (if inWord then 0 else 1) + countWordsAux true cs

def countWords (s : String) : Nat := countWordsAux false s.data

structure Meta where
  restoredFrom : Option String
  originalTimestamp : Option Nat
  wordCount : Nat
  characterCount : Nat
  lineCount : Nat
deriving DecidableEq

/-- One saved revision (versionHistory.js lines 25-38). The free-form caller
metadata is restricted to the two keys the service itself ever passes
(restoredFrom and originalTimestamp, from restoreVersion); the computed stats
always overwrite any caller keys of the same name, as in the object spread. -/
structure Rev where
  id : String
  documentId : String
  content : String
  userId : String
  action : String
  timestamp : Nat
  meta : Meta
deriving DecidableEq

/-- The versions Map of VersionHistoryService, as a total function with
default empty log: Map.get(d) || [] reads and the has/set-empty
initialisation in saveVersion both agree with this reading. -/
abbrev Store := String → List Rev

def emptyStore : Store := fun _ => []

def updateStore (st : Store) (d : String) (l : List Rev) : Store :=
  fun x => if x = d then l else st x

/-- The version object literal built by saveVersion (versionHistory.js lines
25-38): id is Date.now().toString(), content and userId and action are
sanitized, the stats are derived from the sanitized content. An empty userId
falls back to the anonymous marker. -/
def mkVersion (now : Nat) (documentId content userId action : String)
    (extra : Option (String × Nat)) : Rev :=
  let sanitizedContent := sanitizeString content
  { id := toString now
    documentId := documentId
    content := sanitizedContent
    userId := sanitizeString (if userId = "" then "anonymous" else userId)
    action := sanitizeString action
    timestamp := now
    meta := { restoredFrom := extra.map Prod.fst
              originalTimestamp := extra.map Prod.snd
              wordCount := countWords sanitizedContent
              characterCount := sanitizedContent.length
              lineCount := (splitNl sanitizedContent).length } }

/-- VersionHistoryService.saveVersion (versionHistory.js lines 17-55): rejects
an empty documentId or content (JS falsiness of the raw, unsanitized
arguments), appends the new version to the documents log, and when the log
then exceeds 50 entries drops the first array element (shift). -/
def saveVersion (st : Store) (now : Nat) (documentId content userId action : String)
    (extra : Option (String × Nat)) : Except String (Rev × Store) :=
  if documentId = "" ∨ content = "" then
    .error "Document ID and content are required"
  else
    let version := mkVersion now documentId content userId action extra
    let log := st documentId ++ [version]
    let trimmed := if 50 < log.length then log.tail else log
    .ok (version, updateStore st documentId trimmed)

/-- Stable insertion step: the new element passes the elements with strictly
greater timestamp and stops before the first element with a less-or-equal
timestamp, so elements with equal timestamps keep their relative order. -/
def insertByTs (v : Rev) : List Rev → List Rev
  | [] => [v]
  | w :: ws => if v.timestamp < w.timestamp then w :: insertByTs v ws else v :: w :: ws

/-- Array.prototype.sort with the comparator (b.timestamp - a.timestamp) of
getVersions (versionHistory.js line 68). ECMAScript requires sort to be
stable, and a stable sort under this comparator is exactly this insertion
sort: descending timestamps, ties in original array order. -/
def sortByTimestampDesc : List Rev → List Rev
  | [] => []
  | v :: vs => insertByTs v (sortByTimestampDesc vs)

/-- VersionHistoryService.getVersions (versionHistory.js lines 62-69). The
sort happens in place on the stored array, so the store is updated with the
sorted log as well as returning it. -/
def getVersions (st : Store) (documentId : String) : Except String (List Rev × Store) :=
  if documentId = "" then .error "Document ID is required"
  else
    let sorted := sortByTimestampDesc (st documentId)
    .ok (sorted, updateStore st documentId sorted)

/-- VersionHistoryService.getVersion (versionHistory.js lines 77-84): first
array element with matching id, null when absent. -/
def getVersion (st : Store) (documentId versionId : String) : Except String (Option Rev) :=
  if documentId = "" ∨ versionId = "" then
    .error "Document ID and version ID are required"
  else .ok ((st documentId).find? fun v => v.id == versionId)

/-- VersionHistoryService.getLatestVersion (versionHistory.js lines 91-98):
head of getVersions, null when the document has no revisions. -/
def getLatestVersion (st : Store) (documentId : String) :
    Except String (Option Rev × Store) :=
  match getVersions st documentId with
  | .error e => .error e
  | .ok (vs, st2) => .ok (vs.head?, st2)

/-- The line diff of compareVersions (versionHistory.js line 124): lines of
the second text such that no equal line occurs anywhere in the first text. -/
def diffAddedLines (textA textB : String) : List String :=
  (splitNl textB).filter fun line => !(splitNl textA).contains line

/-- The line diff of compareVersions (versionHistory.js line 125): lines of
the first text such that no equal line occurs anywhere in the second text. -/
def diffRemovedLines (textA textB : String) : List String :=
  (splitNl textA).filter fun line => !(splitNl textB).contains line

structure Comparison where
  version1 : Rev
  version2 : Rev
  added : List String
  removed : List String
  addedCount : Nat
  removedCount : Nat
  totalChanges : Nat
deriving DecidableEq

/-- VersionHistoryService.compareVersions (versionHistory.js lines 107-138). -/
def compareVersions (st : Store) (documentId versionId1 versionId2 : String) :
    Except String Comparison :=
  if documentId = "" ∨ versionId1 = "" ∨ versionId2 = "" then
    .error "Document ID and both version IDs are required"
  else
    let versions := st documentId
    match versions.find? (fun v => v.id == versionId1),
          versions.find? (fun v => v.id == versionId2) with
    | some v1, some v2 =>
      let added := diffAddedLines v1.content v2.content
      let removed := diffRemovedLines v1.content v2.content
      .ok { version1 := v1
            version2 := v2
            added := added
            removed := removed
            addedCount := added.length
            removedCount := removed.length
            totalChanges := added.length + removed.length }
    | _, _ => .error "One or both versions not found"

/-- VersionHistoryService.restoreVersion (versionHistory.js lines 147-170):
looks the target up, fails when absent, and otherwise saves a new version
with the targets content, action restore and provenance metadata. -/
def restoreVersion (st : Store) (now : Nat) (documentId versionId userId : String) :
    Except String (Rev × Store) :=
  if documentId = "" ∨ versionId = "" then
    .error "Document ID and version ID are required"
  else
    match getVersion st documentId versionId with
    | .error e => .error e
    | .ok none => .error "Version not found"
    | .ok (some version) =>
      saveVersion st now documentId version.content userId "restore"
        (some (versionId, version.timestamp))

/-- Array.prototype.slice(-k) on the version log (versionHistory.js line
226). For k = 0 the JS argument is -0, which equals 0, so slice starts at
index 0 and copies the whole array; for positive k it keeps the last
min(k, length) elements. -/
def jsSliceLastN (l : List Rev) (k : Nat) : List Rev :=
  if k = 0 then l else l.drop (l.length - k)

/-- VersionHistoryService.cleanupOldVersions (versionHistory.js lines
215-228). -/
def cleanupOldVersions (st : Store) (documentId : String) (keepCount : Nat) :
    Except String Store :=
  if documentId = "" then .error "Document ID is required"
  else
    let versions := st documentId
    if versions.length ≤ keepCount then .ok st
    else .ok (updateStore st documentId (jsSliceLastN versions keepCount))

/-! Export renderer (ExportService in the same source file): the payload
strings built by exportToText and exportToMarkdown. The date strings that the
source takes from new Date() are explicit arguments. -/

structure ExportOptions where
  title : String
  author : String
  tags : List String
  category : String
  includeFrontmatter : Bool
  includeMetadata : Bool

/-- ExportService.createTextHeader (versionHistory.js lines 505-512). -/
def createTextHeader (options : ExportOptions) (localeDate localeTime : String) : String :=
  "Title: " ++ (if options.title = "" then "Exported Document" else options.title) ++
  "\nDate: " ++ localeDate ++
  "\nTime: " ++ localeTime ++
  "\nAuthor: " ++ (if options.author = "" then "Meet with AI" else options.author) ++
  "\n\n---"

/-- ExportService.createMetadataFooter (versionHistory.js lines 493-498). -/
def createMetadataFooter (localeDate localeTime : String) : String :=
  "---\n*Exported from Meet with AI*\n*Date: " ++ localeDate ++
  "*\n*Time: " ++ localeTime ++ "*"

/-- JSON.stringify of an array of strings, used for the tags entry of the
frontmatter (string escaping is not modelled; the claims never exercise it). -/
def jsonStringArray (l : List String) : String :=
  "[" ++ String.intercalate "," (l.map fun s => "\"" ++ s ++ "\"") ++ "]"

/-- ExportService.createFrontmatter (versionHistory.js lines 472-486). -/
def createFrontmatter (options : ExportOptions) (isoDate : String) : String :=
  "---\n" ++
  "title: " ++ (if options.title = "" then "Exported Document" else options.title) ++
  "\ndate: " ++ isoDate ++
  "\nauthor: " ++ (if options.author = "" then "Meet with AI" else options.author) ++
  "\ntags: " ++ jsonStringArray options.tags ++
  "\ncategory: " ++ (if options.category = "" then "export" else options.category) ++
  "\n---"

/-- The payload string of ExportService.exportToText (versionHistory.js lines
390-417): the sanitized content, with the text header prepended when
includeMetadata is set. -/
def exportToText (content : String) (options : ExportOptions)
    (localeDate localeTime : String) : String :=
  let sanitizedContent := sanitizeString content
  if options.includeMetadata then
    createTextHeader options localeDate localeTime ++ "\n\n" ++ sanitizedContent
  else sanitizedContent

/-- The payload string of ExportService.exportToMarkdown (versionHistory.js
lines 349-382): the sanitized content, with frontmatter prepended when
includeFrontmatter is set and the metadata footer appended when
includeMetadata is set. -/
def exportToMarkdown (content : String) (options : ExportOptions)
    (isoDate localeDate localeTime : String) : String :=
  let sanitizedContent := sanitizeString content
  let withFront :=
    if options.includeFrontmatter then
      createFrontmatter options isoDate ++ "\n\n" ++ sanitizedContent
    else sanitizedContent
  if options.includeMetadata then
    withFront ++ "\n\n" ++ createMetadataFooter localeDate localeTime
  else withFront

/-! Concrete stores and result extractors used by the concrete theorems
below. The extractors unpack an Except result, with a default for the error
case that the theorems never hit. -/

def storeOfSave (e : Except String (Rev × Store)) (dflt : Store) : Store :=
  match e with
  | .ok (_, s) => s
  | .error _ => dflt

def isOkSave (e : Except String (Rev × Store)) : Bool :=
  match e with
  | .ok _ => true
  | .error _ => false

def storeOfCleanup (e : Except String Store) (dflt : Store) : Store :=
  match e with
  | .ok s => s
  | .error _ => dflt

def isOkCleanup (e : Except String Store) : Bool :=
  match e with
  | .ok _ => true
  | .error _ => false

def versionsOf (e : Except String (List Rev × Store)) : List Rev :=
  match e with
  | .ok (l, _) => l
  | .error _ => []

/-- One saveVersion call on document d with timestamp i+1 and content x,
keeping the store unchanged on the error branch (never hit in the traces). -/
def traceStep (s : Store) (i : Nat) : Store :=
  storeOfSave (saveVersion s (i + 1) "d" "x" "u" "edit" none) s

/-- The store after 50 saves on document d at timestamps 1..50. -/
def fullStore50 : Store := (List.range 50).foldl traceStep emptyStore

/-- The same store after one getVersions call, whose in-place sort has
reordered the stored log newest-first. -/
def sortedStore50 : Store :=
  match getVersions fullStore50 "d" with
  | .ok (_, s2) => s2
  | .error _ => fullStore50

/-- The store after a further save at timestamp 51 on the re-sorted log. -/
def overflowStore : Store := traceStep sortedStore50 50

/-- A store holding one revision of document d (timestamp 1, content x). -/
def oneRevStore : Store :=
  updateStore emptyStore "d" [mkVersion 1 "d" "x" "u" "edit" none]

/-- Two revisions with distinct timestamps 1 and 2, contents a and b, and a
store holding both under document d, in creation order. -/
def wRev1 : Rev := mkVersion 1 "d" "a" "u" "edit" none

def wRev2 : Rev := mkVersion 2 "d" "b" "u" "edit" none

def wStore : Store := updateStore emptyStore "d" [wRev1, wRev2]

/-- The store after two saves on document d with the same timestamp 7,
contents a then b: two revisions with identical timestamps and ids. -/
def tieStore : Store :=
  storeOfSave
    (saveVersion (storeOfSave (saveVersion emptyStore 7 "d" "a" "u" "edit" none) emptyStore)
      7 "d" "b" "u" "edit" none)
    emptyStore

/-! Machinery for the sanitizer idempotence proof: a characterisation of the
strings that the tag scanner maps to themselves. -/

/-- Characters that can occur in a re-emitted tag body: the closing slash and
lowercase letters. -/
def isTagBodyChar (c : Char) : Bool := c == '/' || isLowerAlpha c

/-- Splitting a character list at the first closing angle bracket: the part
before it and the part after it, or none when it does not occur. -/
def splitAtGt : List Char → Option (List Char × List Char)
  | [] => none
  | c :: cs =>
    if c = '>' then some ([], cs)
    else
      match splitAtGt cs with
      | none => none
      | some (b, r) => some (c :: b, r)

/-- The fixed points of the tag scanner: text characters other than an
opening angle bracket, and complete tags whose body re-emits itself. -/
inductive OkA : List Char → Prop where
  | nil : OkA []
  | text {c : Char} {cs : List Char} : c ≠ '<' → OkA cs → OkA (c :: cs)
  | tag {body rest : List Char} : emitTag body = '<' :: body ++ ['>'] →
      '>' ∉ body → OkA rest → OkA ('<' :: body ++ '>' :: rest)

theorem splitAtGt_eq {cs b r : List Char} (h : splitAtGt cs = some (b, r)) :
    cs = b ++ '>' :: r ∧ '>' ∉ b := by
  induction cs generalizing b with
  | nil => simp [splitAtGt] at h
  | cons c cs ih =>
    by_cases hc : c = '>'
    · subst hc
      simp [splitAtGt] at h
      obtain ⟨hb, hr⟩ := h
      subst hb; subst hr
      simp
    · simp only [splitAtGt, if_neg hc] at h
      cases hs : splitAtGt cs with
      | none => rw [hs] at h; simp at h
      | some br =>
        obtain ⟨b2, r2⟩ := br
        rw [hs] at h
        simp at h
        obtain ⟨hb, hr⟩ := h
        subst hb; subst hr
        obtain ⟨h1, h2⟩ := ih hs
        subst h1
        simp [hc, h2]
        intro hcontra
        exact hc hcontra.symm

theorem splitAtGt_append (b r : List Char) (hb : '>' ∉ b) :
    splitAtGt (b ++ '>' :: r) = some (b, r) := by
  induction b with
  | nil => simp [splitAtGt]
  | cons c b ih =>
    have hc : c ≠ '>' := by
      intro h; exact hb (h ▸ List.mem_cons_self c b)
    have hb2 : '>' ∉ b := fun h => hb (List.mem_cons_of_mem c h)
    simp only [List.cons_append, splitAtGt, if_neg hc]
    rw [show b.append ('>' :: r) = b ++ '>' :: r from rfl, ih hb2]

theorem dpAux_some_eq (acc cs : List Char) :
    dpAux (some acc) cs =
      match splitAtGt cs with
      | none => []
      | some (b, r) => emitTag (acc.reverse ++ b) ++ dpAux none r := by
  induction cs generalizing acc with
  | nil => simp [dpAux, splitAtGt]
  | cons c cs ih =>
    by_cases hc : c = '>'
    · subst hc
      simp [dpAux, splitAtGt]
    · simp only [dpAux, if_neg hc, splitAtGt]
      rw [ih (c :: acc)]
      cases hs : splitAtGt cs with
      | none => simp
      | some br =>
        obtain ⟨b, r⟩ := br
        simp [List.append_assoc]

theorem dompurify_lt (cs : List Char) :
    dompurify ('<' :: cs) =
      match splitAtGt cs with
      | none => []
      | some (b, r) => emitTag b ++ dompurify r := by
  show dpAux none ('<' :: cs) = _
  simp only [dpAux, if_pos rfl]
  rw [dpAux_some_eq]
  cases hs : splitAtGt cs with
  | none => rfl
  | some br => obtain ⟨b, r⟩ := br; simp [dompurify]

theorem dompurify_cons_ne (c : Char) (cs : List Char) (h : c ≠ '<') :
    dompurify (c :: cs) = c :: dompurify cs := by
  simp [dompurify, dpAux, h]

theorem dompurify_nil : dompurify [] = [] := rfl

theorem takeWhile_eq_self_of {p : Char → Bool} {l : List Char}
    (h : ∀ c ∈ l, p c = true) : l.takeWhile p = l := by
  induction l with
  | nil => rfl
  | cons c cs ih =>
    rw [List.takeWhile_cons, if_pos (h c (List.mem_cons_self c cs))]
    rw [ih fun d hd => h d (List.mem_cons_of_mem c hd)]

theorem mem_allowed_alpha {n : List Char} (h : n ∈ allowedTagNames) :
    ∀ c ∈ n, isLowerAlpha c = true := by
  simp only [allowedTagNames, List.mem_cons, List.not_mem_nil, or_false] at h
  rcases h with rfl | rfl | rfl | rfl | rfl | rfl | rfl <;> decide

theorem mem_allowed_ne_nil {n : List Char} (h : n ∈ allowedTagNames) : n ≠ [] := by
  simp only [allowedTagNames, List.mem_cons, List.not_mem_nil, or_false] at h
  rcases h with rfl | rfl | rfl | rfl | rfl | rfl | rfl <;> simp

theorem tagBodyChar_facts {c : Char} (h : isTagBodyChar c = true) :
    c ≠ '>' ∧ c ≠ '<' ∧ isQuoteSemiChar c = false ∧ isCtlChar c = false ∧
      isWsChar c = false := by
  simp only [isTagBodyChar, Bool.or_eq_true, beq_iff_eq] at h
  rcases h with rfl | h
  · exact ⟨by decide, by decide, by decide, by decide, by decide⟩
  · simp only [isLowerAlpha, Bool.and_eq_true, decide_eq_true_eq] at h
    refine ⟨?_, ?_, ?_, ?_, ?_⟩
    · rintro rfl; exact absurd h (by decide)
    · rintro rfl; exact absurd h (by decide)
    · simp only [isQuoteSemiChar, Bool.or_eq_false_iff, beq_eq_false_iff_ne]
      omega
    · simp only [isCtlChar, Bool.or_eq_false_iff, beq_eq_false_iff_ne,
        decide_eq_false_iff_not]
      omega
    · simp only [isWsChar, Bool.or_eq_false_iff, beq_eq_false_iff_ne]
      omega

theorem lowerAlpha_beq_slash {c : Char} (h : isLowerAlpha c = true) :
    (c == '/') = false := by
  simp only [isLowerAlpha, Bool.and_eq_true, decide_eq_true_eq] at h
  simp only [beq_eq_false_iff_ne, ne_eq]
  rintro rfl
  exact absurd h (by decide)

theorem emitTag_shape (b : List Char) :
    emitTag b = [] ∨
      ∃ inner, emitTag b = '<' :: inner ++ ['>'] ∧
        emitTag inner = '<' :: inner ++ ['>'] ∧
        ∀ c ∈ inner, isTagBodyChar c = true := by
  by_cases hcl : (b.head? == some '/') = true
  · by_cases hall : (b.tail.takeWhile isLowerAlpha) ∈ allowedTagNames
    · right
      have halpha : ∀ c ∈ b.tail.takeWhile isLowerAlpha, isLowerAlpha c = true :=
        fun c hc => List.mem_takeWhile_imp hc
      refine ⟨'/' :: b.tail.takeWhile isLowerAlpha, ?_, ?_, ?_⟩
      · simp [emitTag, hcl, hall]
      · simp [emitTag, takeWhile_eq_self_of halpha, hall]
      · intro c hc
        rcases List.mem_cons.mp hc with rfl | hc
        · decide
        · simp [isTagBodyChar, halpha c hc]
    · left
      simp [emitTag, hcl, hall]
  · by_cases hall : (b.takeWhile isLowerAlpha) ∈ allowedTagNames
    · right
      have halpha : ∀ c ∈ b.takeWhile isLowerAlpha, isLowerAlpha c = true :=
        fun c hc => List.mem_takeWhile_imp hc
      refine ⟨b.takeWhile isLowerAlpha, ?_, ?_, ?_⟩
      · simp [emitTag, hcl, hall]
      · obtain ⟨c, t, hct⟩ : ∃ c t, b.takeWhile isLowerAlpha = c :: t := by
          cases hn : b.takeWhile isLowerAlpha with
          | nil => exact absurd (hn ▸ hall) fun hx => mem_allowed_ne_nil hx rfl
          | cons c t => exact ⟨c, t, rfl⟩
        have hc1 : isLowerAlpha c = true := halpha c (hct ▸ List.mem_cons_self c t)
        have hhd : ((b.takeWhile isLowerAlpha).head? == some '/') = false := by
          rw [hct]
          simpa using lowerAlpha_beq_slash hc1
        simp [emitTag, hhd, takeWhile_eq_self_of halpha, hall]
      · intro c hc
        simp [isTagBodyChar, halpha c hc]
    · left
      simp [emitTag, hcl, hall]

theorem emitTag_self_chars {body : List Char}
    (hself : emitTag body = '<' :: body ++ ['>']) :
    ∀ c ∈ body, isTagBodyChar c = true := by
  rcases emitTag_shape body with h | ⟨inner, h1, _, h3⟩
  · rw [h] at hself; exact absurd hself (by simp)
  · have : inner = body := by
      have := h1.symm.trans hself
      have h4 := List.cons.inj this
      exact List.append_cancel_right h4.2
    exact this ▸ h3

theorem okA_dompurify_aux :
    ∀ (n : Nat) (l : List Char), l.length ≤ n → OkA (dompurify l) := by
  intro n
  induction n with
  | zero =>
    intro l h
    have hl : l = [] := List.length_eq_zero.mp (Nat.le_zero.mp h)
    subst hl
    exact OkA.nil
  | succ n ih =>
    intro l h
    match l with
    | [] => exact OkA.nil
    | c :: cs =>
      by_cases hc : c = '<'
      · subst hc
        rw [dompurify_lt]
        cases hs : splitAtGt cs with
        | none => exact OkA.nil
        | some br =>
          obtain ⟨b, r⟩ := br
          obtain ⟨hcs, hnb⟩ := splitAtGt_eq hs
          dsimp only
          have hlen : r.length ≤ n := by
            have : cs.length = b.length + 1 + r.length := by
              rw [hcs]; simp [List.length_append]; omega
            simp at h
            omega
          rcases emitTag_shape b with hE | ⟨inner, hE, hself, hchars⟩
          · simpa [hE] using ih r hlen
          · rw [hE]
            have hrw : ('<' :: inner ++ ['>']) ++ dompurify r =
                '<' :: inner ++ '>' :: dompurify r := by simp
            rw [hrw]
            exact OkA.tag hself
              (fun hmem => ((tagBodyChar_facts (hchars _ hmem)).1 rfl).elim)
              (ih r hlen)
      · rw [dompurify_cons_ne c cs hc]
        exact OkA.text hc (ih cs (by simpa using Nat.le_of_succ_le_succ (by simpa using h)))

theorem okA_dompurify (l : List Char) : OkA (dompurify l) :=
  okA_dompurify_aux l.length l (Nat.le_refl _)

theorem dompurify_of_okA {l : List Char} (h : OkA l) : dompurify l = l := by
  induction h with
  | nil => rfl
  | text hc hcs ih =>
    rename_i c cs
    rw [dompurify_cons_ne c cs hc, ih]
  | tag hself hnb hrest ih =>
    rename_i body rest
    have : ('<' :: body ++ '>' :: rest) = '<' :: (body ++ '>' :: rest) := by simp
    rw [this, dompurify_lt, splitAtGt_append _ _ hnb]
    dsimp only
    rw [hself, ih]
    simp

theorem okA_filter {p : Char → Bool} (hlt : p '<' = true) (hgt : p '>' = true)
    (hbody : ∀ c, isTagBodyChar c = true → p c = true) {l : List Char}
    (h : OkA l) : OkA (l.filter p) := by
  induction h with
  | nil => exact OkA.nil
  | text hc hcs ih =>
    rename_i c cs
    rw [List.filter_cons]
    by_cases hp : p c
    · simp only [hp, if_true]
      exact OkA.text hc ih
    · simp only [hp, Bool.false_eq_true, if_false]
      exact ih
  | tag hself hnb hrest ih =>
    rename_i body rest
    have hbchars : ∀ c ∈ body, isTagBodyChar c = true := emitTag_self_chars hself
    have hfb : body.filter p = body :=
      List.filter_eq_self.mpr fun c hc => hbody c (hbchars c hc)
    have : List.filter p ('<' :: body ++ '>' :: rest) =
        '<' :: body ++ '>' :: List.filter p rest := by
      rw [show ('<' :: body ++ '>' :: rest) = '<' :: (body ++ '>' :: rest) from by simp,
        List.filter_cons, hlt]
      simp only [if_true, List.filter_append, hfb, List.filter_cons, hgt]
      simp
    rw [this]
    exact OkA.tag hself hnb ih

theorem okA_dropWhile {p : Char → Bool} (hlt : p '<' = false) {l : List Char}
    (h : OkA l) : OkA (l.dropWhile p) := by
  induction h with
  | nil => exact OkA.nil
  | text hc hcs ih =>
    rename_i c cs
    rw [List.dropWhile_cons]
    by_cases hp : p c
    · simp only [hp, if_true]
      exact ih
    · simp only [hp, Bool.false_eq_true, if_false]
      exact OkA.text hc hcs
  | tag hself hnb hrest ih =>
    rename_i body rest
    have : List.dropWhile p ('<' :: body ++ '>' :: rest) =
        '<' :: body ++ '>' :: rest := by
      rw [show ('<' :: body ++ '>' :: rest) = '<' :: (body ++ '>' :: rest) from by simp,
        List.dropWhile_cons, hlt]
      simp
    rw [this]
    exact OkA.tag hself hnb hrest

theorem trimRight_append (a b : List Char) :
    trimRight (a ++ b) = if trimRight b = [] then trimRight a else a ++ trimRight b := by
  induction a with
  | nil =>
    by_cases hb : trimRight b = []
    · simp [hb, trimRight]
    · simp [hb]
  | cons c a ih =>
    show trimRight (c :: (a ++ b)) = _
    by_cases hb : trimRight b = []
    · simp only [hb, if_true]
      simp only [trimRight, ih, hb, if_true]
    · simp only [hb, Bool.false_eq_true, if_false]
      simp only [trimRight, ih, hb, if_false]
      cases ht : a ++ trimRight b with
      | nil =>
        exact absurd (List.append_eq_nil.mp ht).2 hb
      | cons d ds =>
        dsimp only
        rw [List.cons_append, ht]

theorem trimRight_single_keep {c : Char} (h : isWsChar c = false) :
    trimRight [c] = [c] := by
  simp [trimRight, h]

theorem okA_trimRight {l : List Char} (h : OkA l) : OkA (trimRight l) := by
  induction h with
  | nil => exact OkA.nil
  | text hc hcs ih =>
    rename_i c cs
    show OkA (trimRight (c :: cs))
    cases ht : trimRight cs with
    | nil =>
      by_cases hw : isWsChar c
      · simp only [trimRight, ht, hw, if_true]
        exact OkA.nil
      · simp only [trimRight, ht, hw, Bool.false_eq_true, if_false]
        exact OkA.text hc OkA.nil
    | cons d ds =>
      simp only [trimRight, ht]
      exact OkA.text hc (ht ▸ ih)
  | tag hself hnb hrest ih =>
    rename_i body rest
    have htag : trimRight ('<' :: body ++ ['>']) = '<' :: body ++ ['>'] := by
      rw [show ('<' :: body ++ ['>']) = ('<' :: body) ++ ['>'] from by simp,
        trimRight_append]
      rw [trimRight_single_keep (by decide)]
      simp
    have hsplit : ('<' :: body ++ '>' :: rest) = ('<' :: body ++ ['>']) ++ rest := by
      simp
    rw [hsplit, trimRight_append]
    cases hr : trimRight rest with
    | nil =>
      simp only [if_true]
      rw [htag]
      exact OkA.tag hself hnb OkA.nil
    | cons d ds =>
      simp only [List.cons_ne_nil, if_false]
      rw [show ('<' :: body ++ ['>']) ++ (d :: ds) = '<' :: body ++ '>' :: (d :: ds) from by simp]
      exact OkA.tag hself hnb (hr ▸ ih)

theorem trimRight_sublist (l : List Char) : List.Sublist (trimRight l) l := by
  induction l with
  | nil => exact List.Sublist.refl []
  | cons c cs ih =>
    show List.Sublist (trimRight (c :: cs)) (c :: cs)
    cases ht : trimRight cs with
    | nil =>
      by_cases hw : isWsChar c
      · simp only [trimRight, ht, hw, if_true]
        exact List.nil_sublist _
      · simp only [trimRight, ht, hw, Bool.false_eq_true, if_false]
        exact List.Sublist.cons₂ c (List.nil_sublist cs)
    | cons d ds =>
      simp only [trimRight, ht]
      exact List.Sublist.cons₂ c (ht ▸ ih)

theorem dropWhile_head_false {p : Char → Bool} :
    ∀ {l : List Char} {c : Char} {t : List Char},
      l.dropWhile p = c :: t → p c = false := by
  intro l
  induction l with
  | nil => intro c t h; simp [List.dropWhile] at h
  | cons a as ih =>
    intro c t h
    rw [List.dropWhile_cons] at h
    by_cases hp : p a
    · exact ih (by simpa [hp] using h)
    · simp only [hp, Bool.false_eq_true, if_false] at h
      obtain ⟨rfl, -⟩ := List.cons.inj h
      exact Bool.not_eq_true _ ▸ (by simpa using hp)

theorem trimRight_head_shape (c : Char) (cs : List Char) :
    trimRight (c :: cs) = [] ∨ ∃ t, trimRight (c :: cs) = c :: t := by
  cases ht : trimRight cs with
  | nil =>
    by_cases hw : isWsChar c
    · left; simp [trimRight, ht, hw]
    · right; exact ⟨[], by simp [trimRight, ht, hw]⟩
  | cons d ds => right; exact ⟨d :: ds, by simp [trimRight, ht]⟩

theorem trimRight_idem (l : List Char) : trimRight (trimRight l) = trimRight l := by
  induction l with
  | nil => rfl
  | cons c cs ih =>
    cases ht : trimRight cs with
    | nil =>
      by_cases hw : isWsChar c
      · simp [trimRight, ht, hw]
      · simp [trimRight, ht, hw]
    | cons d ds =>
      have h2 : trimRight (d :: ds) = d :: ds := by rw [← ht]; exact ht ▸ ih
      simp only [trimRight, ht]
      simp only [trimRight] at h2 ⊢
      rw [h2]

theorem trimRight_getLast_not_ws :
    ∀ {l : List Char} {c : Char}, (trimRight l).getLast? = some c →
      isWsChar c = false := by
  intro l
  induction l with
  | nil => intro c h; simp [trimRight] at h
  | cons a as ih =>
    intro c h
    cases ht : trimRight as with
    | nil =>
      simp only [trimRight, ht] at h
      by_cases hw : isWsChar a
      · simp [hw] at h
      · simp only [hw, Bool.false_eq_true, if_false] at h
        simp only [List.getLast?_singleton, Option.some.injEq] at h
        subst h
        simpa using hw
    | cons d ds =>
      simp only [trimRight, ht] at h
      rw [List.getLast?_cons_cons] at h
      exact ih (ht ▸ h)

theorem sanitizeChars_mem_stage {l : List Char} {c : Char}
    (h : c ∈ sanitizeChars l) :
    c ∈ removeCtl (removeQuoteSemi (dompurify l)) :=
  ((trimRight_sublist _).trans (List.dropWhile_sublist _)).subset h

theorem sanitizeChars_no_qs {l : List Char} :
    ∀ c ∈ sanitizeChars l, isQuoteSemiChar c = false := by
  intro c h
  have h2 := sanitizeChars_mem_stage h
  have h3 : c ∈ removeQuoteSemi (dompurify l) := List.mem_of_mem_filter h2
  have h4 := List.of_mem_filter h3
  simpa using h4

theorem sanitizeChars_no_ctl {l : List Char} :
    ∀ c ∈ sanitizeChars l, isCtlChar c = false := by
  intro c h
  have h4 := List.of_mem_filter (sanitizeChars_mem_stage h)
  simpa using h4

theorem okA_sanitizeChars (l : List Char) : OkA (sanitizeChars l) := by
  apply okA_trimRight
  apply okA_dropWhile (by decide)
  apply okA_filter (by decide) (by decide)
    (fun c hc => by simp [(tagBodyChar_facts hc).2.2.2.1])
  apply okA_filter (by decide) (by decide)
    (fun c hc => by simp [(tagBodyChar_facts hc).2.2.1])
  exact okA_dompurify l

theorem sanitizeChars_head_not_ws {l : List Char} {c : Char} {t : List Char}
    (h : sanitizeChars l = c :: t) : isWsChar c = false := by
  have hX : sanitizeChars l =
      trimRight ((removeCtl (removeQuoteSemi (dompurify l))).dropWhile isWsChar) := rfl
  cases hz : (removeCtl (removeQuoteSemi (dompurify l))).dropWhile isWsChar with
  | nil =>
    rw [hX, hz] at h
    simp [trimRight] at h
  | cons d ds =>
    have hd : isWsChar d = false := dropWhile_head_false hz
    rcases trimRight_head_shape d ds with hsh | ⟨t2, hsh⟩
    · rw [hX, hz, hsh] at h; exact absurd h (by simp)
    · rw [hX, hz, hsh] at h
      obtain ⟨rfl, -⟩ := List.cons.inj h
      exact hd

theorem sanitizeChars_dropWhile_eq (l : List Char) :
    (sanitizeChars l).dropWhile isWsChar = sanitizeChars l := by
  cases hX : sanitizeChars l with
  | nil => simp
  | cons c t =>
    rw [List.dropWhile_cons, sanitizeChars_head_not_ws hX]
    simp

theorem sanitizeChars_trimRight_eq (l : List Char) :
    trimRight (sanitizeChars l) = sanitizeChars l :=
  trimRight_idem _

theorem sanitizeChars_idem (l : List Char) :
    sanitizeChars (sanitizeChars l) = sanitizeChars l := by
  have hdp : dompurify (sanitizeChars l) = sanitizeChars l :=
    dompurify_of_okA (okA_sanitizeChars l)
  have hqs : removeQuoteSemi (sanitizeChars l) = sanitizeChars l :=
    List.filter_eq_self.mpr fun c hc => by simp [sanitizeChars_no_qs c hc]
  have hctl : removeCtl (sanitizeChars l) = sanitizeChars l :=
    List.filter_eq_self.mpr fun c hc => by simp [sanitizeChars_no_ctl c hc]
  show trimChars (removeCtl (removeQuoteSemi (dompurify (sanitizeChars l)))) =
    sanitizeChars l
  rw [hdp, hqs, hctl]
  show trimRight ((sanitizeChars l).dropWhile isWsChar) = sanitizeChars l
  rw [sanitizeChars_dropWhile_eq, sanitizeChars_trimRight_eq]

theorem sanitizeString_idem (s : String) :
    sanitizeString (sanitizeString s) = sanitizeString s := by
  show String.mk (sanitizeChars (String.mk (sanitizeChars s.data)).data) = _
  rw [show (String.mk (sanitizeChars s.data)).data = sanitizeChars s.data from rfl,
    sanitizeChars_idem]
  rfl

theorem find?_append_of_none {p : Rev → Bool} {l1 l2 : List Rev}
    (h : ∀ w ∈ l1, p w = false) : (l1 ++ l2).find? p = l2.find? p := by
  induction l1 with
  | nil => simp
  | cons a l ih =>
    rw [List.cons_append, List.find?_cons_of_neg _ (by simp [h a (List.mem_cons_self a l)])]
    exact ih fun w hw => h w (List.mem_cons_of_mem a hw)

theorem mem_insertByTs {x v : Rev} {m : List Rev} :
    x ∈ insertByTs v m ↔ x = v ∨ x ∈ m := by
  induction m with
  | nil => simp [insertByTs]
  | cons w ws ih =>
    by_cases hlt : v.timestamp < w.timestamp
    · simp only [insertByTs, hlt, if_true, List.mem_cons, ih]
      try tauto
    · simp only [insertByTs, hlt, if_false, List.mem_cons]
      try tauto

theorem insertByTs_sorted {v : Rev} {m : List Rev}
    (h : List.Sorted (fun a b => b.timestamp ≤ a.timestamp) m) :
    List.Sorted (fun a b => b.timestamp ≤ a.timestamp) (insertByTs v m) := by
  induction m with
  | nil => simp [insertByTs]
  | cons w ws ih =>
    rw [List.sorted_cons] at h
    obtain ⟨hw, hws⟩ := h
    by_cases hlt : v.timestamp < w.timestamp
    · simp only [insertByTs, hlt, if_true]
      rw [List.sorted_cons]
      refine ⟨?_, ih hws⟩
      intro x hx
      rcases mem_insertByTs.mp hx with rfl | hx
      · exact Nat.le_of_lt hlt
      · exact hw x hx
    · simp only [insertByTs, hlt, if_false]
      rw [List.sorted_cons]
      refine ⟨?_, by rw [List.sorted_cons]; exact ⟨hw, hws⟩⟩
      intro x hx
      rcases List.mem_cons.mp hx with rfl | hx
      · omega
      · exact Nat.le_trans (hw x hx) (by omega)

theorem sortByTimestampDesc_sorted (l : List Rev) :
    List.Sorted (fun a b => b.timestamp ≤ a.timestamp) (sortByTimestampDesc l) := by
  induction l with
  | nil => simp [sortByTimestampDesc]
  | cons v vs ih => exact insertByTs_sorted ih

theorem filter_insertByTs (v : Rev) (m : List Rev) (t : Nat) :
    (insertByTs v m).filter (fun w => w.timestamp == t) =
      if v.timestamp = t then v :: m.filter (fun w => w.timestamp == t)
      else m.filter (fun w => w.timestamp == t) := by
  induction m with
  | nil =>
    by_cases hv : v.timestamp = t <;> simp [insertByTs, List.filter_cons, hv]
  | cons w ws ih =>
    by_cases hlt : v.timestamp < w.timestamp
    · simp only [insertByTs, hlt, if_true, List.filter_cons]
      by_cases hv : v.timestamp = t
      · have hwne : (w.timestamp == t) = false := by
          simp only [beq_eq_false_iff_ne, ne_eq]
          omega
        simp only [hv, if_true, ih, hwne, Bool.false_eq_true, if_false]
        try simp [hv]
      · simp only [hv, if_false, ih]
    · simp only [insertByTs, hlt, if_false, List.filter_cons]
      by_cases hv : v.timestamp = t <;> try simp [hv]

theorem filter_sortByTimestampDesc (l : List Rev) (t : Nat) :
    (sortByTimestampDesc l).filter (fun w => w.timestamp == t) =
      l.filter (fun w => w.timestamp == t) := by
  induction l with
  | nil => rfl
  | cons v vs ih =>
    show (insertByTs v (sortByTimestampDesc vs)).filter _ = _
    rw [filter_insertByTs]
    by_cases hv : v.timestamp = t
    · simp [hv, List.filter_cons, ih]
    · simp [hv, List.filter_cons, ih]

/-- C1: evaluation of the retention behaviour at a concrete operation
sequence. After 50 saveVersion calls on document d (timestamps 1..50), one
getVersions call (whose in-place sort reorders the stored log newest-first),
and one further saveVersion (timestamp 51), the log holds 50 revisions, but
the revision evicted by the overflow shift is the one with id 50 - the most
recent of the previous revisions - while the oldest revision (id 1) is still
retained. This refutes the FIFO-eviction part of the claim: the cap holds,
but the evicted revision is not the oldest by creation order. -/
theorem retention_evicts_newest_after_sort :
    (overflowStore "d").length = 50 ∧
    ((overflowStore "d").map (fun v => v.id)).contains "50" = false ∧
    ((overflowStore "d").map (fun v => v.id)).contains "1" = true := by
  decide

/-- C10: saveVersion checks emptiness on the raw content before
sanitization, so the one-character content consisting of a double quote
passes the check, is sanitized to the empty string, and is persisted with
wordCount 0, characterCount 0 and lineCount 1. -/
theorem saveVersion_keeps_content_emptied_by_sanitizer :
    ∃ r st2, saveVersion emptyStore 5 "d" "\"" "u" "edit" none = .ok (r, st2) ∧
      r.content = "" ∧ r.meta.wordCount = 0 ∧ r.meta.characterCount = 0 ∧
      r.meta.lineCount = 1 := by
  refine ⟨_, _, rfl, by decide, by decide, by decide, by decide⟩

/-- C7: the diff uses set-membership semantics on lines. For all texts split
on newline boundaries, a line is in added exactly when it occurs in the
second text and equals no line of the first text, and symmetrically for
removed; in particular diffing a/b/c against b/c/d adds d and removes a. -/
theorem diffLines_set_membership :
    (∀ (textA textB line : String),
        (line ∈ diffAddedLines textA textB ↔
          line ∈ splitNl textB ∧ line ∉ splitNl textA) ∧
        (line ∈ diffRemovedLines textA textB ↔
          line ∈ splitNl textA ∧ line ∉ splitNl textB)) ∧
    diffAddedLines "a\nb\nc" "b\nc\nd" = ["d"] ∧
    diffRemovedLines "a\nb\nc" "b\nc\nd" = ["a"] := by
  refine ⟨?_, by decide, by decide⟩
  intro ta tb line
  constructor
  · rw [diffAddedLines, List.mem_filter]
    simp
  · rw [diffRemovedLines, List.mem_filter]
    simp

/-- C6: for two revision ids both present in a documents log,
compareVersions in the two orders swaps added and removed, preserves
totalChanges, and in each result totalChanges is addedCount plus
removedCount, which are the lengths of added and removed. -/
theorem compareVersions_swap (st : Store) (documentId versionId1 versionId2 : String)
    (v1 v2 : Rev)
    (hd : documentId ≠ "") (h1 : versionId1 ≠ "") (h2 : versionId2 ≠ "")
    (hf1 : (st documentId).find? (fun v => v.id == versionId1) = some v1)
    (hf2 : (st documentId).find? (fun v => v.id == versionId2) = some v2) :
    ∃ c12 c21,
      compareVersions st documentId versionId1 versionId2 = .ok c12 ∧
      compareVersions st documentId versionId2 versionId1 = .ok c21 ∧
      c12.added = c21.removed ∧ c12.removed = c21.added ∧
      c12.totalChanges = c21.totalChanges ∧
      c12.totalChanges = c12.addedCount + c12.removedCount ∧
      c12.addedCount = c12.added.length ∧ c12.removedCount = c12.removed.length ∧
      c21.totalChanges = c21.addedCount + c21.removedCount ∧
      c21.addedCount = c21.added.length ∧ c21.removedCount = c21.removed.length := by
  have hcond1 : ¬(documentId = "" ∨ versionId1 = "" ∨ versionId2 = "") := by
    simp [hd, h1, h2]
  have hcond2 : ¬(documentId = "" ∨ versionId2 = "" ∨ versionId1 = "") := by
    simp [hd, h1, h2]
  refine ⟨{ version1 := v1
            version2 := v2
            added := diffAddedLines v1.content v2.content
            removed := diffRemovedLines v1.content v2.content
            addedCount := (diffAddedLines v1.content v2.content).length
            removedCount := (diffRemovedLines v1.content v2.content).length
            totalChanges := (diffAddedLines v1.content v2.content).length +
              (diffRemovedLines v1.content v2.content).length },
          { version1 := v2
            version2 := v1
            added := diffRemovedLines v1.content v2.content
            removed := diffAddedLines v1.content v2.content
            addedCount := (diffRemovedLines v1.content v2.content).length
            removedCount := (diffAddedLines v1.content v2.content).length
            totalChanges := (diffRemovedLines v1.content v2.content).length +
              (diffAddedLines v1.content v2.content).length },
          ?_, ?_, rfl, rfl, Nat.add_comm _ _, rfl, rfl, rfl, rfl, rfl, rfl⟩
  · simp only [compareVersions, if_neg hcond1, hf1, hf2]
  · simp only [compareVersions, if_neg hcond2, hf1, hf2]
    rfl

/-- C6 witness: the general theorem applied to a store holding two concrete
revisions of document d with ids 1 and 2. -/
theorem compareVersions_swap_witness :
    ∃ c12 c21,
      compareVersions wStore "d" "1" "2" = .ok c12 ∧
      compareVersions wStore "d" "2" "1" = .ok c21 ∧
      c12.added = c21.removed ∧ c12.removed = c21.added ∧
      c12.totalChanges = c21.totalChanges ∧
      c12.totalChanges = c12.addedCount + c12.removedCount ∧
      c12.addedCount = c12.added.length ∧ c12.removedCount = c12.removed.length ∧
      c21.totalChanges = c21.addedCount + c21.removedCount ∧
      c21.addedCount = c21.added.length ∧ c21.removedCount = c21.removed.length :=
  compareVersions_swap wStore "d" "1" "2" wRev1 wRev2 (by decide) (by decide)
    (by decide) (by decide) (by decide)

/-- C9: with includeMetadata set (and no frontmatter), the txt payload is the
text header block followed by the sanitized content verbatim, the markdown
payload is the sanitized content verbatim followed by the metadata footer,
and in both payloads the sanitized content occurs as a contiguous substring
(an explicit decomposition into a part before and a part after). -/
theorem export_payloads_contain_sanitized_content
    (content title author category : String) (tags : List String)
    (isoDate localeDate localeTime : String) :
    (exportToText content
        { title := title, author := author, tags := tags, category := category,
          includeFrontmatter := false, includeMetadata := true }
        localeDate localeTime =
      createTextHeader
          { title := title, author := author, tags := tags, category := category,
            includeFrontmatter := false, includeMetadata := true }
          localeDate localeTime ++ "\n\n" ++ sanitizeString content) ∧
    (exportToMarkdown content
        { title := title, author := author, tags := tags, category := category,
          includeFrontmatter := false, includeMetadata := true }
        isoDate localeDate localeTime =
      sanitizeString content ++ "\n\n" ++ createMetadataFooter localeDate localeTime) ∧
    (∃ pre post, exportToText content
        { title := title, author := author, tags := tags, category := category,
          includeFrontmatter := false, includeMetadata := true }
        localeDate localeTime = pre ++ sanitizeString content ++ post) ∧
    (∃ pre post, exportToMarkdown content
        { title := title, author := author, tags := tags, category := category,
          includeFrontmatter := false, includeMetadata := true }
        isoDate localeDate localeTime = pre ++ sanitizeString content ++ post) := by
  refine ⟨rfl, rfl, ?_, ?_⟩
  · refine ⟨createTextHeader
        { title := title, author := author, tags := tags, category := category,
          includeFrontmatter := false, includeMetadata := true }
        localeDate localeTime ++ "\n\n", "", ?_⟩
    rw [String.append_empty]
    rfl
  · refine ⟨"", "\n\n" ++ createMetadataFooter localeDate localeTime, ?_⟩
    rw [String.empty_append, ← String.append_assoc]
    rfl

/-- C8 (amended to string inputs): on every string input the sanitizer is
idempotent and its output contains no quote characters or semicolons, no
ASCII control characters, and no leading or trailing whitespace. -/
theorem sanitizeInput_string_idempotent_clean (s : String) :
    sanitizeInput (.str (sanitizeInput (.str s))) = sanitizeInput (.str s) ∧
    (∀ c ∈ (sanitizeInput (.str s)).data,
      isQuoteSemiChar c = false ∧ isCtlChar c = false) ∧
    (∀ c t, (sanitizeInput (.str s)).data = c :: t → isWsChar c = false) ∧
    (∀ c, (sanitizeInput (.str s)).data.getLast? = some c → isWsChar c = false) := by
  refine ⟨sanitizeString_idem s, ?_, ?_, ?_⟩
  · intro c hc
    exact ⟨sanitizeChars_no_qs c hc, sanitizeChars_no_ctl c hc⟩
  · intro c t h
    exact sanitizeChars_head_not_ws h
  · intro c h
    exact trimRight_getLast_not_ws h

/-- C8 counterexample: a non-string input (a JS array holding the string
with a leading space, the letter a, a semicolon and a trailing space) is
coerced and HTML-escaped only, so the sanitizer returns it unchanged - with
a semicolon, leading and trailing whitespace - and a second application
yields a different string, refuting idempotence and the character
guarantees for arbitrary inputs. -/
theorem sanitizeInput_nonstring_not_idempotent :
    sanitizeInput (.strArr [" a; "]) = " a; " ∧
    sanitizeInput (.str (sanitizeInput (.strArr [" a; "]))) = "a" ∧
    sanitizeInput (.str (sanitizeInput (.strArr [" a; "]))) ≠
      sanitizeInput (.strArr [" a; "]) ∧
    ';' ∈ (sanitizeInput (.strArr [" a; "])).data ∧
    (sanitizeInput (.strArr [" a; "])).data.head? = some ' ' ∧
    isWsChar ' ' = true ∧ isQuoteSemiChar ';' = true := by
  decide

/-- C5 (amended tie order): getVersions returns the stored log stably sorted
newest-first by timestamp - descending timestamps, and the revisions of any
fixed timestamp keep their stored (insertion) order, earliest-inserted first
- and getLatestVersion is its head (none when the document has no
revisions). -/
theorem getVersions_sorted_stable (st : Store) (documentId : String)
    (hd : documentId ≠ "") :
    ∃ vs st2, getVersions st documentId = .ok (vs, st2) ∧
      vs = sortByTimestampDesc (st documentId) ∧
      List.Sorted (fun a b => b.timestamp ≤ a.timestamp) vs ∧
      (∀ t, vs.filter (fun v => v.timestamp == t) =
        (st documentId).filter (fun v => v.timestamp == t)) ∧
      getLatestVersion st documentId = .ok (vs.head?, st2) := by
  refine ⟨sortByTimestampDesc (st documentId),
    updateStore st documentId (sortByTimestampDesc (st documentId)),
    ?_, rfl, sortByTimestampDesc_sorted _, filter_sortByTimestampDesc _, ?_⟩
  · simp [getVersions, hd]
  · simp [getLatestVersion, getVersions, hd]

/-- C5 witness: the amended theorem applied to the concrete two-revision
tie store. -/
theorem getVersions_sorted_stable_witness :
    ∃ vs st2, getVersions tieStore "d" = .ok (vs, st2) ∧
      vs = sortByTimestampDesc (tieStore "d") ∧
      List.Sorted (fun a b => b.timestamp ≤ a.timestamp) vs ∧
      (∀ t, vs.filter (fun v => v.timestamp == t) =
        (tieStore "d").filter (fun v => v.timestamp == t)) ∧
      getLatestVersion tieStore "d" = .ok (vs.head?, st2) :=
  getVersions_sorted_stable tieStore "d" (by decide)

/-- C5 counterexample: two saves on document d with the same timestamp 7,
contents a then b. The claim predicts ties broken most-recently-inserted
first, so a head with content b; the code (a stable sort of the stored log)
returns the earliest-inserted revision first, content a. -/
theorem getVersions_tie_earliest_inserted_first :
    (versionsOf (getVersions tieStore "d")).map (fun v => v.content) = ["a", "b"] ∧
    (["a", "b"] : List String) ≠ ["b", "a"] := by
  decide

/-- C4 (amended for keepCount 0): cleanupOldVersions is a no-op when the
document has keepCount or fewer revisions and also when keepCount is 0
(slice(-0) copies the whole array); otherwise it retains exactly the last
keepCount entries of the stored log - the keepCount most recent by creation
order when the log is in creation order - and leaves other documents
untouched. -/
theorem cleanupOldVersions_trims_except_zero (st : Store) (documentId : String)
    (keepCount : Nat) (hd : documentId ≠ "") :
    ∃ st2, cleanupOldVersions st documentId keepCount = .ok st2 ∧
      st2 documentId =
        (if keepCount = 0 ∨ (st documentId).length ≤ keepCount then st documentId
         else (st documentId).drop ((st documentId).length - keepCount)) ∧
      ∀ d, d ≠ documentId → st2 d = st d := by
  by_cases hle : (st documentId).length ≤ keepCount
  · exact ⟨st, by simp [cleanupOldVersions, hd, hle], by simp [hle], fun d hd2 => rfl⟩
  · refine ⟨updateStore st documentId (jsSliceLastN (st documentId) keepCount),
      ?_, ?_, ?_⟩
    · simp [cleanupOldVersions, hd, hle]
    · by_cases hk : keepCount = 0
      · simp [updateStore, jsSliceLastN, hk]
      · simp [updateStore, jsSliceLastN, hk, hle]
    · intro d hd2
      simp [updateStore, hd2]

/-- C4 witness: the amended theorem applied to the one-revision store with
keepCount 10 (the no-op branch). -/
theorem cleanupOldVersions_trims_witness :
    ∃ st2, cleanupOldVersions oneRevStore "d" 10 = .ok st2 ∧
      st2 "d" =
        (if (10 : Nat) = 0 ∨ (oneRevStore "d").length ≤ 10 then oneRevStore "d"
         else (oneRevStore "d").drop ((oneRevStore "d").length - 10)) ∧
      ∀ d, d ≠ "d" → st2 d = oneRevStore d :=
  cleanupOldVersions_trims_except_zero oneRevStore "d" 10 (by decide)

/-- C4 counterexample: on a document with one revision, cleanupOldVersions
with keepCount 0 succeeds but leaves the revision in place (slice(-0) is
slice(0)), while the claim says the log is left with exactly zero
revisions. -/
theorem cleanupOldVersions_keep0_is_noop :
    isOkCleanup (cleanupOldVersions oneRevStore "d" 0) = true ∧
    ((storeOfCleanup (cleanupOldVersions oneRevStore "d" 0) emptyStore) "d").length
      = 1 ∧ (1 : Nat) ≠ 0 := by
  decide

theorem toDigitsCore_length_le (b : Nat) :
    ∀ (fuel n : Nat) (ds : List Char),
      ds.length ≤ (Nat.toDigitsCore b fuel n ds).length := by
  intro fuel
  induction fuel with
  | zero => intro n ds; simp [Nat.toDigitsCore]
  | succ f ih =>
    intro n ds
    unfold Nat.toDigitsCore
    dsimp only
    split
    · simp
    · exact le_trans (by simp) (ih (n / b) (Nat.digitChar (n % b) :: ds))

theorem natToString_ne_empty (n : Nat) : toString n ≠ "" := by
  have h : 1 ≤ (Nat.toDigits 10 n).length := by
    unfold Nat.toDigits
    unfold Nat.toDigitsCore
    dsimp only
    split
    · simp
    · exact le_trans (by simp) (toDigitsCore_length_le 10 n (n / 10) [Nat.digitChar (n % 10)])
  intro hc
  have h2 : (Nat.toDigits 10 n) = [] := by
    have h3 := congrArg String.data hc
    simpa [Nat.repr, List.asString] using h3
  rw [h2] at h
  simp at h

theorem updateStore_self (st : Store) (d : String) (l : List Rev) :
    updateStore st d l d = l := by
  simp [updateStore]

/-- C3: after a successful saveVersion on a valid documentId with non-empty
content, getVersion at the returned id yields exactly the returned revision
(hence identical content, action and derived stats), provided the new id -
the stringified timestamp - does not collide with any id already in the
documents log. -/
theorem saveVersion_getVersion_roundtrip (st : Store) (now : Nat)
    (documentId content userId action : String)
    (hd : documentId ≠ "") (hc : content ≠ "")
    (huniq : ∀ v ∈ st documentId, v.id ≠ toString now) :
    ∃ r st2, saveVersion st now documentId content userId action none = .ok (r, st2) ∧
      getVersion st2 documentId r.id = .ok (some r) ∧
      r.id = toString now ∧
      r.content = sanitizeString content ∧
      r.action = sanitizeString action ∧
      r.meta.wordCount = countWords (sanitizeString content) ∧
      r.meta.characterCount = (sanitizeString content).length ∧
      r.meta.lineCount = (splitNl (sanitizeString content)).length := by
  set v := mkVersion now documentId content userId action none with hv
  set trimmed :=
    if 50 < (st documentId ++ [v]).length then (st documentId ++ [v]).tail
    else st documentId ++ [v] with htr
  have hvid : v.id = toString now := rfl
  refine ⟨v, updateStore st documentId trimmed, ?_, ?_, rfl, rfl, rfl, rfl, rfl, rfl⟩
  · simp only [saveVersion]
    rw [if_neg (show ¬(documentId = "" ∨ content = "") from by simp [hd, hc])]
  · have hfind : ∀ (l1 : List Rev), (∀ w ∈ l1, w.id ≠ toString now) →
        (l1 ++ [v]).find? (fun w => w.id == v.id) = some v := by
      intro l1 h1
      rw [find?_append_of_none (fun w hw => by
        simp only [beq_eq_false_iff_ne, ne_eq, hvid]
        exact h1 w hw)]
      rw [List.find?_cons_of_pos _ (by simp)]
    have hvne : v.id ≠ "" := hvid ▸ natToString_ne_empty now
    rw [getVersion, if_neg (by simp [hd, hvne]), updateStore_self]
    rw [htr]
    by_cases hlen : 50 < (st documentId ++ [v]).length
    · simp only [hlen, if_true]
      cases hst : st documentId with
      | nil =>
        rw [hst] at hlen
        simp at hlen
      | cons a rest =>
        rw [List.cons_append, List.tail_cons]
        rw [hfind rest fun w hw => huniq w (hst.symm ▸ List.mem_cons_of_mem a hw)]
    · simp only [hlen, if_false]
      rw [hfind (st documentId) huniq]

/-- C3 witness: the round trip run on the empty store at timestamp 5 with
content hello. -/
theorem saveVersion_getVersion_roundtrip_witness :
    ∃ r st2, saveVersion emptyStore 5 "d" "hello" "u" "edit" none = .ok (r, st2) ∧
      getVersion st2 "d" r.id = .ok (some r) ∧
      r.id = toString 5 ∧
      r.content = sanitizeString "hello" ∧
      r.action = sanitizeString "edit" ∧
      r.meta.wordCount = countWords (sanitizeString "hello") ∧
      r.meta.characterCount = (sanitizeString "hello").length ∧
      r.meta.lineCount = (splitNl (sanitizeString "hello")).length :=
  saveVersion_getVersion_roundtrip emptyStore 5 "d" "hello" "u" "edit"
    (by decide) (by decide) (by intro v hv; simp [emptyStore] at hv)

/-- C2 (amended): restoreVersion fails with the not-found error when the
target id is absent; when the target v is present (with sanitizer-fixed,
non-empty content) and the log is below the 50-entry cap, it never mutates
any stored revision - the whole log is preserved - and appends a new
revision whose content equals v.content exactly, tagged restore, with
restoredFrom the target id and originalTimestamp the targets timestamp. The
below-cap hypothesis is needed because at a full log the overflow shift
evicts the array head, which can be v itself. -/
theorem restoreVersion_appends_copy (st : Store) (now : Nat)
    (documentId versionId userId : String)
    (hd : documentId ≠ "") (hv : versionId ≠ "") :
    ((st documentId).find? (fun w => w.id == versionId) = none →
      restoreVersion st now documentId versionId userId =
        .error "Version not found") ∧
    ∀ v, (st documentId).find? (fun w => w.id == versionId) = some v →
      sanitizeString v.content = v.content → v.content ≠ "" →
      (st documentId).length < 50 →
      ∃ r st2, restoreVersion st now documentId versionId userId = .ok (r, st2) ∧
        r.content = v.content ∧ r.action = "restore" ∧
        r.meta.restoredFrom = some versionId ∧
        r.meta.originalTimestamp = some v.timestamp ∧
        st2 documentId = st documentId ++ [r] ∧
        (∀ d, d ≠ documentId → st2 d = st d) := by
  constructor
  · intro hnone
    rw [restoreVersion, if_neg (show ¬(documentId = "" ∨ versionId = "") from by
      simp [hd, hv])]
    rw [getVersion, if_neg (show ¬(documentId = "" ∨ versionId = "") from by
      simp [hd, hv]), hnone]
  · intro v hfind hsan hne hlen
    have hrc : (mkVersion now documentId v.content userId "restore"
        (some (versionId, v.timestamp))).content = v.content := hsan
    refine ⟨mkVersion now documentId v.content userId "restore"
        (some (versionId, v.timestamp)),
      updateStore st documentId (st documentId ++
        [mkVersion now documentId v.content userId "restore"
          (some (versionId, v.timestamp))]),
      ?_, hrc, ?_, rfl, rfl, updateStore_self _ _ _, ?_⟩
    · rw [restoreVersion, if_neg (show ¬(documentId = "" ∨ versionId = "") from by
        simp [hd, hv])]
      rw [getVersion, if_neg (show ¬(documentId = "" ∨ versionId = "") from by
        simp [hd, hv]), hfind]
      show saveVersion st now documentId v.content userId "restore"
        (some (versionId, v.timestamp)) = _
      rw [saveVersion, if_neg (show ¬(documentId = "" ∨ v.content = "") from by
        simp [hd, hne])]
      dsimp only
      rw [if_neg (show ¬(50 < (st documentId ++
          [mkVersion now documentId v.content userId "restore"
            (some (versionId, v.timestamp))]).length) from by
        rw [List.length_append]
        simp
        omega)]
    · show sanitizeString "restore" = "restore"
      decide
    · intro d hd2
      simp [updateStore, hd2]

/-- C2 witness: restoring the first of the two revisions of the concrete
store appends a copy with provenance metadata and leaves the log prefix
unchanged. -/
theorem restoreVersion_appends_copy_witness :
    ∃ r st2, restoreVersion wStore 9 "d" "1" "u" = .ok (r, st2) ∧
      r.content = wRev1.content ∧ r.action = "restore" ∧
      r.meta.restoredFrom = some "1" ∧
      r.meta.originalTimestamp = some wRev1.timestamp ∧
      st2 "d" = wStore "d" ++ [r] ∧
      (∀ d, d ≠ "d" → st2 d = wStore d) :=
  (restoreVersion_appends_copy wStore 9 "d" "1" "u" (by decide) (by decide)).2
    wRev1 (by decide) (by decide) (by decide) (by decide)

/-- C2 counterexample: on a document whose log already holds 50 revisions in
creation order, restoring the oldest revision (id 1) succeeds but the
overflow shift inside saveVersion evicts that very revision: after the call
the target id 1 is no longer present in the log, refuting the never-removes
part of the claim. -/
theorem restoreVersion_can_evict_target :
    isOkSave (restoreVersion fullStore50 100 "d" "1" "u") = true ∧
    (((storeOfSave (restoreVersion fullStore50 100 "d" "1" "u") emptyStore) "d").map
      (fun v => v.id)).contains "1" = false := by
  decide
